import Mathlib

/-!
Verification of the hebbian-memory-system engine
(src/extractors/session-extractor.mjs and friends).

The JavaScript source is shallowly embedded: SQLite tables become lists,
rows become structures, JS numbers become exact rationals, and each
exported function of the engine becomes a Lean function transcribed from
the code.  Conventions used throughout:

* JS numbers are modelled by rationals.  The source does binary
  floating-point arithmetic; every concrete input used below evaluates
  with enough margin that rounding cannot change a comparison, and the
  generic theorems do not depend on the numeric values at all.
* A nullable SQLite text column is an `Option String`; the JS truthiness
  test `x || y` on strings (null and the empty string are falsy) is the
  helper `jsStrOr`.
* Timestamps are epoch milliseconds (`Int`); the source stores ISO
  strings and converts back with `Date.getTime`.
* `Array.prototype.sort` with comparator `(a, b) => b.k - a.k` is stable
  (ES2019); a stable insertion sort with the same ordering produces the
  identical list, which is what `sortByDesc` and `sortByAsc` implement.
-/

namespace Hebbian

/-- JS string truthiness for `x || dflt`: null and the empty string fall
through to the default. -/
def jsStrOr (x : Option String) (dflt : String) : String :=
  match x with
  | some s => if s.isEmpty then dflt else s
  | none => dflt

/-- `entry.detail || entry.title || ""` as used by the selection loop. -/
def jsStrOr2 (detail title : Option String) : String :=
  jsStrOr detail (jsStrOr title "")

/-- JS truthiness of a nullable string (`!!x`). -/
def jsTruthyStr (x : Option String) : Bool :=
  match x with
  | some s => !s.isEmpty
  | none => false

/-- `hay.includes(sub)` on character lists. -/
def listHas (sub : List Char) : List Char → Bool
  | [] => sub.isEmpty
  | c :: rest => sub.isPrefixOf (c :: rest) || listHas sub rest

/-- `hay.includes(sub)` for strings. -/
def strIncludes (hay sub : String) : Bool :=
  listHas sub.data hay.data

/-- `s.toLowerCase()`: lower-case every character (identical to
`String.toLower`, restated over the character list so that concrete
instances reduce in the kernel). -/
def strLower (s : String) : String :=
  ⟨s.data.map Char.toLower⟩

/-- Insert into a descending-ordered list, after any earlier element with
an equal or larger key (stability of the JS sort). -/
def insDesc {α : Type} (key : α → ℚ) (x : α) : List α → List α
  | [] => [x]
  | y :: ys => if key y ≤ key x then x :: y :: ys else y :: insDesc key x ys

/-- Stable descending sort, the model of
`arr.sort((a, b) => key(b) - key(a))`. -/
def sortByDesc {α : Type} (key : α → ℚ) : List α → List α
  | [] => []
  | x :: xs => insDesc key x (sortByDesc key xs)

/-- Insert into an ascending-ordered list, after earlier elements with a
smaller or equal key. -/
def insAsc {α : Type} (key : α → ℚ) (x : α) : List α → List α
  | [] => [x]
  | y :: ys => if key x ≤ key y then x :: y :: ys else y :: insAsc key x ys

/-- Stable ascending sort, the model of
`arr.sort((a, b) => key(a) - key(b))`. -/
def sortByAsc {α : Type} (key : α → ℚ) : List α → List α
  | [] => []
  | x :: xs => insAsc key x (sortByAsc key xs)

/-!
## Embedding blobs and vector math

`embeddingToBlob` stores the raw little-endian float32 bytes of a vector;
`blobToEmbedding` rebuilds a `Float32Array` with

  `new Float32Array(buf.buffer, buf.byteOffset, buf.byteLength / 4)`.

ECMAScript semantics of that constructor call:

* the `length` argument goes through `ToIndex`, and `ToIndex` truncates a
  fractional value toward zero (ES2023 7.1.22), so a byte length that is
  not a multiple of 4 yields the first `floor(byteLength / 4)` complete
  floats with the trailing bytes dropped — it does not throw;
* the constructor throws a `RangeError` only when `byteOffset` is not a
  multiple of 4.  Node.js `Buffer`s — including the blobs better-sqlite3
  hands back — are views whose `byteOffset` is 8-byte aligned, so that
  check can never fire here and the construction is total.

A blob is therefore modelled as the list of float values of its complete
4-byte groups plus the number of trailing bytes.
-/

/-- An embedding BLOB: the float32 values of its complete 4-byte groups,
plus the leftover bytes after the last complete group. -/
structure Blob where
  vec : List ℚ
  trailing : Fin 4
deriving DecidableEq, Repr

/-- Byte length of the stored BLOB. -/
def Blob.byteLength (b : Blob) : ℕ := 4 * b.vec.length + b.trailing.val

/-- `blobToEmbedding(blob)`: null in, null out; otherwise the complete
4-byte groups of the view, per the ECMAScript semantics described above.
Total — on a byte length that is not a multiple of 4 it truncates rather
than throwing. -/
def blobToEmbedding : Option Blob → Option (List ℚ)
  | none => none
  | some b => some b.vec

/-- Largest `k` with `k ≤ fuel` and `k * k ≤ n` (0 when none). -/
def sqrtUpTo : ℕ → ℕ → ℕ
  | 0, _ => 0
  | fuel + 1, n => if (fuel + 1) * (fuel + 1) ≤ n then fuel + 1 else sqrtUpTo fuel n

/-- Integer square root (floor), by structural recursion so that concrete
instances reduce in the kernel. -/
def natSqrt (n : ℕ) : ℕ := sqrtUpTo n n

/-- Exact square root on the rationals: returns the square root when the
argument is the square of a rational, and 0 otherwise.  The JS source
applies `Math.sqrt` to sums of squares of floats; every concrete vector
in this file has perfect-square norms, where this model and the float
computation agree exactly, and no generic theorem below depends on the
value of a square root. -/
def ratSqrt (q : ℚ) : ℚ :=
  let n := q.num.toNat
  let d := q.den
  if 0 ≤ q.num ∧ natSqrt n * natSqrt n = n ∧ natSqrt d * natSqrt d = d then
    (natSqrt n : ℚ) / (natSqrt d : ℚ)
  else 0

/-- Dot product of two equal-length vectors. -/
def dotProd : List ℚ → List ℚ → ℚ
  | a :: as, b :: bs => a * b + dotProd as bs
  | _, _ => 0

/-- Sum of squares of a vector. -/
def normSq (v : List ℚ) : ℚ := dotProd v v

/-- `cosineSimilarity(a, b)`: 0 when either vector is missing, lengths
mismatch, or the denominator is zero; otherwise dot over the product of
norms. -/
def cosineSimilarity : Option (List ℚ) → Option (List ℚ) → ℚ
  | some a, some b =>
    if a.length ≠ b.length then 0
    else
      let denom := ratSqrt (normSq a) * ratSqrt (normSq b)
      if denom = 0 then 0 else dotProd a b / denom
  | _, _ => 0

/-!
## Data model

The `memories` table (schema version 3.0) and the `co_occurrences` table.
String columns that are nullable in the schema are `Option String`;
`activation REAL DEFAULT 0` is a rational; `status TEXT DEFAULT 'active'`
is nullable for legacy rows.
-/

/-- One row of the `memories` table. -/
structure Memory where
  id : String
  title : Option String := none
  source : Option String := none
  source_section : Option String := none
  created : Int := 0
  last_retrieved : Option Int := none
  retrieval_count : Int := 0
  content_hash : Option String := none
  activation : ℚ := 0
  detail : Option String := none
  domain : Option String := none
  pattern_type : Option String := none
  embedding : Option Blob := none
  status : Option String := some "active"
  superseded_by : Option String := none
  corrects : Option String := none
deriving DecidableEq, Repr

/-- One row of the `co_occurrences` table, primary key `(memory_a,
memory_b)`. -/
structure CoEdge where
  a : String
  b : String
  weight : ℚ
deriving DecidableEq, Repr

/-- The SQLite database: both tables as row lists. -/
structure Db where
  memories : List Memory := []
  co_occurrences : List CoEdge := []
deriving DecidableEq, Repr

/-- The SQL filter `status = 'active' OR status IS NULL` used by every
candidate query of `retrieve`. -/
def activeOk (m : Memory) : Bool :=
  m.status == some "active" || m.status.isNone

/-!
## Activation engine
-/

/-- The structure update performed by the prepared statement
`stmts.bumpActivation` on every row matching one id. -/
def bumpRow (amount : ℚ) (now : Int) (m : Memory) : Memory :=
  { m with
    activation := m.activation + amount
    retrieval_count := m.retrieval_count + 1
    last_retrieved := some now }

/-- `UPDATE memories SET activation = activation + ?, retrieval_count =
retrieval_count + 1, last_retrieved = ? WHERE id = ?`. -/
def bumpOne (amount : ℚ) (now : Int) (id : String) (mems : List Memory) :
    List Memory :=
  mems.map (fun m => if m.id == id then bumpRow amount now m else m)

/-- `bumpActivations(db, ids, amount)`: runs `stmts.bumpActivation` for
each id inside one transaction, counting the ids whose UPDATE reported
`changes > 0`; returns the updated store and the count. -/
def bumpActivations (db : Db) (ids : List String) (amount : ℚ) (now : Int) :
    Db × ℕ :=
  let r := ids.foldl
    (fun (acc : List Memory × ℕ) id =>
      let changes := (acc.1.filter (fun m => m.id == id)).length
      (bumpOne amount now id acc.1, acc.2 + if 0 < changes then 1 else 0))
    (db.memories, 0)
  ({ db with memories := r.1 }, r.2)

/-!
## Co-occurrence engine
-/

/-- `stmts.insertCoOcc`: `INSERT INTO co_occurrences VALUES (?, ?, ?) ON
CONFLICT(memory_a, memory_b) DO UPDATE SET weight = weight +
excluded.weight`. -/
def insertCoOcc (a b : String) (w : ℚ) : List CoEdge → List CoEdge
  | [] => [⟨a, b, w⟩]
  | e :: rest =>
    if e.a == a && e.b == b then { e with weight := e.weight + w } :: rest
    else e :: insertCoOcc a b w rest

/-- Append an id to its domain group, preserving first-seen group order
(JS object property insertion order). -/
def addToGroup (d id : String) : List (String × List String) →
    List (String × List String)
  | [] => [(d, [id])]
  | (d1, l) :: rest =>
    if d1 == d then (d1, l ++ [id]) :: rest else (d1, l) :: addToGroup d id rest

/-- The `byDomain` grouping of `wireCoOccurrences`: look each id up with
`stmts.getMemory`, skip missing rows, group the rest by
`mem.domain || "general"`. -/
def byDomainOf (mems : List Memory) (ids : List String) :
    List (String × List String) :=
  ids.foldl
    (fun acc id =>
      match mems.find? (fun m => m.id == id) with
      | none => acc
      | some m => addToGroup (jsStrOr m.domain "general") id acc)
    []

/-- The ordered pairs `(ids[i], ids[j])` for `i < j`, in loop order. -/
def pairsOf : List String → List (String × String)
  | [] => []
  | x :: rest => rest.map (fun y => (x, y)) ++ pairsOf rest

/-- Both directed inserts the wiring transaction performs for one
unordered pair. -/
def wirePair (p : String × String) (g : List CoEdge) : List CoEdge :=
  insertCoOcc p.2 p.1 1 (insertCoOcc p.1 p.2 1 g)

/-- The inner double loop of `wireCoOccurrences` for one domain group
(groups with fewer than two ids are skipped). -/
def wireGroup (g : List CoEdge) (ids : List String) : List CoEdge :=
  if ids.length < 2 then g
  else (pairsOf ids).foldl (fun acc p => wirePair p acc) g

/-- Effect of one `wireCoOccurrences` transaction on the co-occurrence
table, given the memories visible to `stmts.getMemory`. -/
def wireCoOcc (mems : List Memory) (ids : List String) (g : List CoEdge) :
    List CoEdge :=
  (byDomainOf mems ids).foldl (fun acc grp => wireGroup acc grp.2) g

/-- `wireCoOccurrences(db, ids)`. -/
def wireCoOccurrences (db : Db) (ids : List String) : Db :=
  { db with co_occurrences := wireCoOcc db.memories ids db.co_occurrences }

/-- `boosts[rid] = (boosts[rid] || 0) + inc`, with JS object property
insertion order: a new key is appended. -/
def addBoost (k : String) (inc : ℚ) : List (String × ℚ) → List (String × ℚ)
  | [] => [(k, inc)]
  | (k1, v) :: rest =>
    if k1 == k then (k1, v + inc) :: rest else (k1, v) :: addBoost k inc rest

/-- `stmts.getCoOccurrences`: neighbours of one id by descending weight,
`LIMIT n`. -/
def coOccOf (g : List CoEdge) (id : String) (n : ℕ) : List CoEdge :=
  (sortByDesc (fun e => e.weight) (g.filter (fun e => e.a == id))).take n

/-- `getSpreadingActivation(db, activeIds, limit)`: accumulate
`weight * 0.3` over the top-20 neighbours of each active id (skipping
ids already active), then return the top-`limit` boosted memories that
exist, paired with their boost. -/
def getSpreadingActivation (db : Db) (activeIds : List String) (limit : ℕ) :
    List (Memory × ℚ) :=
  let boosts := activeIds.foldl
    (fun bs id =>
      (coOccOf db.co_occurrences id 20).foldl
        (fun bs2 e =>
          if activeIds.contains e.b then bs2
          else addBoost e.b (e.weight * ((3 : ℚ) / 10)) bs2)
        bs)
    []
  ((sortByDesc (fun p => p.2) boosts).take limit).filterMap
    (fun p =>
      (db.memories.find? (fun m => m.id == p.1)).map (fun m => (m, p.2)))

/-!
## Semantic search
-/

/-- `semanticSearch(db, queryEmbedding, limit)`: brute-force cosine over
every row whose `embedding` column is non-null (no status filter in the
source), descending, `LIMIT limit`. -/
def semanticSearch (db : Db) (q : Option (List ℚ)) (limit : ℕ) :
    List (String × ℚ) :=
  (sortByDesc (fun p => p.2)
    ((db.memories.filter (fun m => m.embedding.isSome)).map
      (fun r => (r.id, cosineSimilarity q (blobToEmbedding r.embedding))))).take
    limit

/-!
## Retrieval pipeline

`retrieve(db, options)` transcribed clause by clause.  The returned JS
objects carry `score` and, depending on the path that produced them,
`semanticSim` (scored path) or `spreadBoost` plus
`spreadingActivation: true` (spreading-activation fill); absent JS
properties are `none` / `false`.
-/

/-- The `options` record of `retrieve`, with the source defaults. -/
structure RetrieveOptions where
  queryEmbedding : Option (List ℚ) := none
  domains : List String := []
  limit : ℕ := 20
  tokenBudget : ℕ := 800
  semanticWeight : ℚ := (6 : ℚ) / 10
  activationWeight : ℚ := (3 : ℚ) / 10
  domainWeight : ℚ := (1 : ℚ) / 10
deriving DecidableEq, Repr

/-- One element of the list `retrieve` returns. -/
structure RetEntry where
  mem : Memory
  score : ℚ
  semanticSim : Option ℚ := none
  spreadBoost : Option ℚ := none
  spreadingActivation : Bool := false
deriving DecidableEq, Repr

/-- Candidate selection: semantic mode when a query embedding is present,
else the domain-hint union, else top 100 by activation; every branch
keeps only rows with `status = 'active' OR status IS NULL`. -/
def candidatesOf (db : Db) (opts : RetrieveOptions) : List Memory :=
  match opts.queryEmbedding with
  | some _ => db.memories.filter (fun m => m.embedding.isSome && activeOk m)
  | none =>
    if opts.domains.isEmpty then
      (sortByDesc (fun m => m.activation) (db.memories.filter activeOk)).take 100
    else
      opts.domains.foldl
        (fun acc d =>
          acc ++ sortByDesc (fun m => m.activation)
            (db.memories.filter (fun m => m.domain == some d && activeOk m)))
        []

/-- `activations[Math.floor(activations.length * 0.95)] || 1` over the
ascending-sorted candidate activations (an out-of-range or zero entry
falls back to 1). -/
def p95Of (acts : List ℚ) : ℚ :=
  let sorted := sortByAsc (fun q => q) acts
  let v := sorted.getD (acts.length * 95 / 100) 0
  if v = 0 then 1 else v

/-- `maxActivation = Math.max(p95, 1)`. -/
def maxActivationOf (acts : List ℚ) : ℚ := max (p95Of acts) 1

/-- `normAct = Math.min(activation / maxActivation, 1)`. -/
def normActWith (maxActivation act : ℚ) : ℚ := min (act / maxActivation) 1

/-- The normalised activation of a candidate with activation `a` when the
candidate activations are `acts`. -/
def normActOf (acts : List ℚ) (a : ℚ) : ℚ :=
  normActWith (maxActivationOf acts) a

/-- The body of the scoring loop for one candidate: `none` when the hard
semantic floor drops the entry, otherwise the scored entry. -/
def scoreEntry (opts : RetrieveOptions) (maxActivation : ℚ) (now : Int)
    (entry : Memory) : Option RetEntry :=
  let semanticSim : ℚ :=
    if opts.queryEmbedding.isSome && entry.embedding.isSome then
      cosineSimilarity opts.queryEmbedding (blobToEmbedding entry.embedding)
    else 0
  if opts.queryEmbedding.isSome ∧ semanticSim < (3 : ℚ) / 10 then none
  else
    let semScore : ℚ :=
      if opts.queryEmbedding.isSome && entry.embedding.isSome then
        semanticSim * opts.semanticWeight
      else 0
    let actScore : ℚ := normActWith maxActivation entry.activation *
      opts.activationWeight
    let recencyBonus : ℚ :=
      match entry.last_retrieved with
      | some t => if now - t < 86400000 then (3 : ℚ) / 100 else 0
      | none => 0
    let domainBonus : ℚ :=
      if !opts.domains.isEmpty && jsTruthyStr entry.domain then
        if opts.domains.any
            (fun d => strIncludes (strLower (jsStrOr entry.domain "")) (strLower d))
        then opts.domainWeight else 0
      else 0
    let typeBonus : ℚ :=
      (if entry.pattern_type == some "rule" ||
          entry.pattern_type == some "directive" then (8 : ℚ) / 100 else 0) +
      (if entry.pattern_type == some "correction" ||
          entry.pattern_type == some "bug-insight" then (5 : ℚ) / 100 else 0) +
      (if entry.pattern_type == some "command" then (4 : ℚ) / 100 else 0) +
      (if entry.pattern_type == some "solution" then (3 : ℚ) / 100 else 0)
    let isGeneral := jsStrOr entry.domain "general" == "general"
    let isDailyLog := strIncludes (strLower (jsStrOr entry.title "")) "daily log"
    let isLegacyFile := !jsTruthyStr entry.pattern_type
    let detail := jsStrOr2 entry.detail entry.title
    let penalties : ℚ :=
      (if isGeneral then (2 : ℚ) / 10 else 0) +
      (if isDailyLog then (25 : ℚ) / 100 else 0) +
      (if isLegacyFile then (1 : ℚ) / 10 else 0) +
      (if detail.length < 20 then (15 : ℚ) / 100 else 0)
    some
      { mem := entry
        score := semScore + actScore + recencyBonus + domainBonus +
          typeBonus - penalties
        semanticSim := some semanticSim
        spreadBoost := none
        spreadingActivation := false }

/-- The characters one entry charges against the budget:
`(entry.detail || entry.title || "").length + 20`. -/
def chargeOf (e : RetEntry) : ℕ :=
  (jsStrOr2 e.mem.detail e.mem.title).length + 20

/-- Count selected so far for one domain. -/
def domCount (seen : List (String × ℕ)) (d : String) : ℕ :=
  match seen.find? (fun p => p.1 == d) with
  | some p => p.2
  | none => 0

/-- `seenDomains.set(dom, domCount + 1)`. -/
def bumpDom (d : String) : List (String × ℕ) → List (String × ℕ)
  | [] => [(d, 1)]
  | (d1, n) :: rest =>
    if d1 == d then (d1, n + 1) :: rest else (d1, n) :: bumpDom d rest

/-- The token-budgeted, domain-diversified selection walk over the ranked
list: break when the next charge would exceed the budget and something is
already selected; skip a candidate whose domain already has 3 entries;
break once `limit` entries are selected.  Returns the selection in order
together with the characters used. -/
def selectGo (charBudget limit : ℕ) :
    List RetEntry → List RetEntry → ℕ → List (String × ℕ) →
    List RetEntry × ℕ
  | [], sel, used, _ => (sel.reverse, used)
  | e :: rest, sel, used, seen =>
    let c := chargeOf e
    if used + c > charBudget ∧ sel ≠ [] then (sel.reverse, used)
    else
      let dom := jsStrOr e.mem.domain "general"
      if 3 ≤ domCount seen dom then selectGo charBudget limit rest sel used seen
      else
        let sel1 := e :: sel
        let used1 := used + c
        if limit ≤ sel1.length then (sel1.reverse, used1)
        else selectGo charBudget limit rest sel1 used1 (bumpDom dom seen)

/-- The returned object for one spreading-activation fill item:
`{ ...rel, score: rel.spreadBoost * 0.01, spreadingActivation: true }`. -/
def mkSpread (p : Memory × ℚ) : RetEntry :=
  { mem := p.1
    score := p.2 * ((1 : ℚ) / 100)
    semanticSim := none
    spreadBoost := some p.2
    spreadingActivation := true }

/-- The fill loop: append each related pattern while its charge still
fits the remaining character budget. -/
def fillGo (charBudget : ℕ) :
    List (Memory × ℚ) → List RetEntry → ℕ → List RetEntry × ℕ
  | [], sel, used => (sel, used)
  | r :: rest, sel, used =>
    let c := chargeOf (mkSpread r)
    if used + c > charBudget then (sel, used)
    else fillGo charBudget rest (sel ++ [mkSpread r]) (used + c)

/-- `retrieve(db, options)` at time `now` (epoch milliseconds). -/
def retrieve (db : Db) (opts : RetrieveOptions) (now : Int) :
    List RetEntry :=
  let candidates := candidatesOf db opts
  if candidates.isEmpty then []
  else
    let maxActivation := maxActivationOf (candidates.map (fun c => c.activation))
    let scored := candidates.filterMap (scoreEntry opts maxActivation now)
    let ranked := sortByDesc (fun e => e.score) scored
    let charBudget := opts.tokenBudget * 4
    let sel := selectGo charBudget opts.limit ranked [] 0 []
    if 10 * sel.2 < 9 * charBudget ∧ sel.1 ≠ [] then
      let related := getSpreadingActivation db (sel.1.map (fun e => e.mem.id)) 8
      (fillGo charBudget related sel.1 sel.2).1
    else sel.1

/-!
## Ingestion: ID-level deduplication

The session extractor computes
`id = inferDomain(detail) + ":session:" + hashContent(summary)` for each
regex-extracted candidate and then runs

  `if (db.prepare("SELECT 1 FROM memories WHERE id = ?").get(id))
     { skippedById++; continue; }`

before pushing the candidate onto `newEntries` (the atomiser in
src/unnamed/part_003 performs the same check with its own id scheme).
The model takes the precomputed candidate ids and returns the kept ids
together with the skip counter. -/
def idDedup (db : Db) (candIds : List String) : List String × ℕ :=
  candIds.foldl
    (fun (acc : List String × ℕ) id =>
      if db.memories.any (fun m => m.id == id) then (acc.1, acc.2 + 1)
      else (acc.1 ++ [id], acc.2))
    ([], 0)

/-!
## Derived notions used by the theorems
-/

/-- Total characters the returned list charges against the budget. -/
def totalCharge (l : List RetEntry) : ℕ := (l.map chargeOf).sum

/-- Weight of the directed edge `(a, b)` as the store reads it
(`find?` on the primary key). -/
def wt (g : List CoEdge) (a b : String) : Option ℚ :=
  (g.find? (fun e => e.a == a && e.b == b)).map (fun e => e.weight)

/-- The primary keys of the co-occurrence table. -/
def keysOf (g : List CoEdge) : List (String × String) :=
  g.map (fun e => (e.a, e.b))

/-- Well-formedness of the co-occurrence table: primary keys are unique
and the weight function is symmetric. -/
def GraphWf (g : List CoEdge) : Prop :=
  (keysOf g).Nodup ∧ ∀ a b, wt g a b = wt g b a

/-- Co-occurrence tables reachable from the empty table by any sequence
of `wireCoOccurrences` transactions (each run against whatever memories
the store holds at that moment). -/
inductive Reach : List CoEdge → Prop where
  | nil : Reach []
  | step (mems : List Memory) (ids : List String) {g : List CoEdge} :
      Reach g → Reach (wireCoOcc mems ids g)

/-- Placeholder entry for indexing into a returned list. -/
def defaultEntry : RetEntry := { mem := { id := "" }, score := 0 }

/-!
## Concrete stores for the concrete theorems

Each claim gets its own rows so the scenarios stay independent.  All
embedding vectors have perfect-square norms, and every score comparison
below holds with a margin far above float rounding error, so the exact
rational evaluation agrees with the float evaluation of the source.
-/

/-- An active, embedded, well-formed rule in domain `alpha`. -/
def c1A : Memory :=
  { id := "a", title := some "ta", detail := some "aaaaaaaaaaaaaaaaaaaa",
    domain := some "alpha", pattern_type := some "rule", activation := 1,
    embedding := some ⟨[1, 0], 0⟩ }

/-- A deprecated memory (superseded by `a`), co-occurring with `a`. -/
def c1B : Memory :=
  { id := "b", title := some "tb", detail := some "bbbbbbbbbbbbbbbbbbbb",
    domain := some "beta", pattern_type := some "rule", activation := 1,
    status := some "deprecated", superseded_by := some "a" }

def c1db : Db :=
  { memories := [c1A, c1B],
    co_occurrences := [⟨"a", "b", 5⟩, ⟨"b", "a", 5⟩] }

def c1opts : RetrieveOptions := { queryEmbedding := some [1, 0] }

def c2A : Memory :=
  { id := "a", title := some "ta", detail := some "aaaaaaaaaaaaaaaaaaaa",
    domain := some "alpha", pattern_type := some "rule", activation := 1,
    embedding := some ⟨[1, 0], 0⟩ }

def c2B : Memory :=
  { id := "b", title := some "tb", detail := some "bbbbbbbbbbbbbbbbbbbb",
    domain := some "beta", pattern_type := some "rule", activation := 1 }

def c2db : Db :=
  { memories := [c2A, c2B],
    co_occurrences := [⟨"a", "b", 5⟩, ⟨"b", "a", 5⟩] }

/-- Entry cap of one. -/
def c2opts : RetrieveOptions := { queryEmbedding := some [1, 0], limit := 1 }

def c4A : Memory :=
  { id := "a", title := some "ta", detail := some "aaaaaaaaaaaaaaaaaaaa",
    domain := some "alpha", pattern_type := some "rule", activation := 1,
    embedding := some ⟨[1, 0], 0⟩ }

/-- Cosine similarity 0 to the query `[1, 0]`, activation 1000 — the
highest in the store — and wired to `a`. -/
def c4C : Memory :=
  { id := "c", title := some "tc", detail := some "cccccccccccccccccccc",
    domain := some "gamma", pattern_type := some "rule", activation := 1000,
    embedding := some ⟨[0, 1], 0⟩ }

def c4db : Db :=
  { memories := [c4A, c4C],
    co_occurrences := [⟨"a", "c", 5⟩, ⟨"c", "a", 5⟩] }

def c4opts : RetrieveOptions := { queryEmbedding := some [1, 0] }

def c5db : Db :=
  { memories := [{ id := "a", activation := 2 }, { id := "b", activation := 3 }] }

def c6mems : List Memory :=
  [{ id := "x", domain := some "d" }, { id := "y", domain := some "d" }]

/-- Negative activation after repeated decay of a low-value entry. -/
def c7mem : Memory :=
  { id := "m7", title := some "t7", detail := some "77777777777777777777",
    domain := some "alpha7", pattern_type := some "rule", activation := -5 }

def c7db : Db := { memories := [c7mem] }

/-- An active memory in domain `web` with no stored embedding. -/
def c8mem : Memory :=
  { id := "m8", title := some "t8", detail := some "88888888888888888888",
    domain := some "web", pattern_type := some "rule", activation := 1 }

def c8db : Db := { memories := [c8mem] }

/-- Query embedding obtained, domain hint available. -/
def c8optsQ : RetrieveOptions :=
  { queryEmbedding := some [1, 0], domains := ["web"] }

/-- Same call without a query embedding. -/
def c8optsD : RetrieveOptions := { domains := ["web"] }

/-- A store whose only row matching the candidate id is deprecated. -/
def c9db : Db :=
  { memories :=
      [{ id := "pk:session:aa", status := some "deprecated",
         superseded_by := some "x" }] }

/-- A 5-byte blob: one complete float32 group and one trailing byte. -/
def c10blob : Blob := ⟨[1], 1⟩

def c10db : Db := { memories := [{ id := "m10", embedding := some c10blob }] }

def c10opts : RetrieveOptions := { queryEmbedding := some [1, 0] }

/-!
## Concrete evaluations

`Rat` arithmetic is `@[irreducible]` in core; the four operations below
are made locally semireducible so that ground terms evaluate inside
`decide`.
-/

section ConcreteEvaluations

attribute [local semireducible] Rat.add Rat.sub Rat.mul Rat.inv

set_option maxRecDepth 16000

/-- C1: the claim that retrieval never returns a memory with status
`deprecated` is right, and the code violates it: on `c1db` the
spreading-activation fill pass appends memory `b` even though its status
is `deprecated`, because `getSpreadingActivation` reads neighbours with
`stmts.getMemory`, which has no status filter. -/
theorem c1_spread_fill_returns_deprecated :
    (retrieve c1db c1opts 0).map
        (fun e => (e.mem.id, e.mem.status, e.spreadingActivation)) =
      [("a", some "active", false), ("b", some "deprecated", true)] := by
  decide

/-- C2 counterexample: with `limit = 1` the returned list has two
entries — the budget-selected entry plus one appended by the
spreading-activation fill, which never checks `limit`. -/
theorem c2_result_exceeds_limit :
    c2opts.limit = 1 ∧ (retrieve c2db c2opts 0).length = 2 := by
  decide

/-- C4 counterexample: memory `c` has cosine similarity 0 to the query —
below the 0.30 floor — and the highest activation in the store, yet it is
returned, because the spreading-activation fill appends co-occurrence
neighbours without any similarity check. -/
theorem c4_floor_bypassed_by_spread_fill :
    (retrieve c4db c4opts 0).map
        (fun e => (e.mem.id, e.semanticSim, e.spreadingActivation)) =
      [("a", some 1, false), ("c", none, true)] ∧
    cosineSimilarity (some [1, 0]) (blobToEmbedding c4C.embedding) = 0 ∧
    (0 : ℚ) < 3 / 10 ∧
    c4db.memories.all (fun m => m.activation ≤ c4C.activation) := by
  decide

/-- C7 counterexample: on a candidate set with a negative activation the
normalised activation is the raw quotient, −5 — the code clips only from
above, so the value is not in `[0, 1]`; the negative contribution is
visible in the returned score `0.3 · (−5) + 0.08 = −71/50`. -/
theorem c7_norm_activation_below_zero :
    normActOf [-5] (-5) = -5 ∧ normActOf [-5] (-5) < 0 ∧
    (retrieve c7db {} 0).map (fun e => e.score) = [-(71 : ℚ) / 50] := by
  decide

/-- C8 counterexample: with a query embedding present and no stored
embeddings, `retrieve` takes the semantic branch, finds no candidates and
returns the empty list; the domain-hint path — which would return `m8` —
is reached only when the query embedding is absent. -/
theorem c8_semantic_mode_does_not_fall_back :
    retrieve c8db c8optsQ 0 = [] ∧
    (retrieve c8db c8optsD 0).map (fun e => e.mem.id) = ["m8"] := by
  decide

/-- C5 counterexample: on the duplicate id list `["a", "a"]` the bump
transaction runs the UPDATE once per occurrence, so the single matching
row gains `2·Δ` activation and `+2` retrieval count, and the returned
counter is 2 even though only one row was affected — the claim fails as
stated for lists with duplicates. -/
theorem c5_duplicate_ids_double_bump :
    (bumpActivations c5db ["a", "a"] ((1 : ℚ) / 2) 99).2 = 2 ∧
    ((bumpActivations c5db ["a", "a"] ((1 : ℚ) / 2) 99).1.memories.filter
        (fun m => m.id == "a")).length = 1 ∧
    (bumpActivations c5db ["a", "a"] ((1 : ℚ) / 2) 99).1.memories.map
        (fun m => (m.id, m.activation, m.retrieval_count, m.last_retrieved)) =
      [("a", 3, 2, some 99), ("b", 3, 0, none)] := by
  decide

/-- C9 counterexample: the ID-dedup query `SELECT 1 FROM memories WHERE
id = ?` has no status filter, so a candidate whose id matches only a
deprecated row is still skipped. -/
theorem c9_dedup_skips_on_deprecated_row :
    idDedup c9db ["pk:session:aa"] = ([], 1) ∧
    c9db.memories.map (fun m => m.status) = [some "deprecated"] := by
  decide

/-- C10 counterexample: a 5-byte blob (byte length not a multiple of 4)
does not make `blobToEmbedding` throw — the `ToIndex` conversion of
`byteLength / 4` truncates, yielding the one complete float — and a query
over a store holding that blob completes normally: `semanticSearch`
scores the row with cosine 0 (length mismatch) and `retrieve` drops it at
the semantic floor instead of raising. -/
theorem c10_malformed_blob_truncates :
    c10blob.byteLength = 5 ∧ c10blob.byteLength % 4 ≠ 0 ∧
    blobToEmbedding (some c10blob) = some [1] ∧
    semanticSearch c10db (some [1, 0]) 20 = [("m10", 0)] ∧
    retrieve c10db c10opts 0 = [] := by
  decide

end ConcreteEvaluations

/-!
## General theorems
-/

/-- Folded form of a skip-or-keep loop over an abstract skip predicate. -/
theorem dedupFold_spec (p : String → Bool) (cands ks : List String) (n : ℕ) :
    cands.foldl
        (fun (acc : List String × ℕ) id =>
          if p id then (acc.1, acc.2 + 1) else (acc.1 ++ [id], acc.2))
        (ks, n) =
      (ks ++ cands.filter (fun i => !p i), n + (cands.filter p).length) := by
  induction cands generalizing ks n with
  | nil => simp
  | cons c rest ih =>
    simp only [List.foldl_cons, List.filter_cons]
    cases hp : p c
    · simp [hp, ih, List.append_assoc]
    · simp [hp, ih]
      omega

/-- C9 amended: a candidate is skipped by ID-level deduplication exactly
when any row with its computed id exists in the store, regardless of that
row's status; the loop keeps the others in order and counts the skips. -/
theorem c9_idDedup_skips_on_any_row (db : Db) (cands : List String) :
    idDedup db cands =
      (cands.filter (fun i => !db.memories.any (fun m => m.id == i)),
       (cands.filter (fun i => db.memories.any (fun m => m.id == i))).length) := by
  unfold idDedup
  rw [dedupFold_spec (fun i => db.memories.any (fun m => m.id == i))]
  simp

/-- C7 amended: during retrieval scoring the normalised activation equals
`activation / max(p95, 1)` clipped from above at 1; it never exceeds 1,
and it is nonnegative whenever the activation is nonnegative (for a
negative activation it is the raw negative quotient — there is no lower
clip). -/
theorem c7_normAct_clipped_above (acts : List ℚ) (a : ℚ) :
    normActOf acts a = min (a / max (p95Of acts) 1) 1 ∧
    normActOf acts a ≤ 1 ∧ (0 ≤ a → 0 ≤ normActOf acts a) := by
  refine ⟨rfl, min_le_right _ _, fun ha => ?_⟩
  have hpos : (0 : ℚ) < max (p95Of acts) 1 :=
    lt_of_lt_of_le one_pos (le_max_right _ _)
  exact le_min (div_nonneg ha hpos.le) zero_le_one

/-- C7 witness: the normalised activation of a nonnegative activation is
nonnegative. -/
theorem c7_normAct_clipped_above_witness :
    (0 : ℚ) ≤ 2 ∧ 0 ≤ normActOf [3, 4] 2 :=
  ⟨by norm_num, (c7_normAct_clipped_above [3, 4] 2).2.2 (by norm_num)⟩

/-- C8 amended: whenever a query embedding is present `retrieve` commits
to the semantic branch; if no memory in the store has an embedding that
branch finds no candidates and the result is empty — the domain-hint path
is reached only when the query embedding is absent. -/
theorem c8_semantic_branch_empty (db : Db) (opts : RetrieveOptions) (now : Int)
    (h1 : opts.queryEmbedding.isSome) (h2 : ∀ m ∈ db.memories, m.embedding = none) :
    retrieve db opts now = [] := by
  have hc : candidatesOf db opts = [] := by
    unfold candidatesOf
    match hq : opts.queryEmbedding with
    | some q =>
      apply List.filter_eq_nil_iff.mpr
      intro m hm
      simp [h2 m hm]
    | none => rw [hq] at h1; simp at h1
  unfold retrieve
  rw [hc]
  simp

/-- C8 witness: on the concrete store with a query embedding and no
stored embeddings the result is empty. -/
theorem c8_semantic_branch_empty_witness : retrieve c8db c8optsQ 0 = [] :=
  c8_semantic_branch_empty c8db c8optsQ 0 (by decide) (by decide)

/-- C10 amended: `blobToEmbedding` is total — null maps to null, and any
non-null blob yields a vector of exactly `floor(byteLength / 4)` floats
(the trailing bytes of a byte length that is not a multiple of 4 are
dropped rather than raising, so `semanticSearch` and `retrieve` complete
normally over such a row). -/
theorem c10_decode_total_truncating :
    blobToEmbedding none = none ∧
    ∀ b : Blob, ∃ v, blobToEmbedding (some b) = some v ∧
      v.length = b.byteLength / 4 := by
  refine ⟨rfl, fun b => ⟨b.vec, rfl, ?_⟩⟩
  have h4 := b.trailing.isLt
  unfold Blob.byteLength
  omega

/-- `bumpRow` does not change the id. -/
theorem bumpRow_id (amount : ℚ) (now : Int) (m : Memory) :
    (bumpRow amount now m).id = m.id := rfl

/-- `bumpOne` preserves which ids occur. -/
theorem bumpOne_any (amount : ℚ) (now : Int) (i j : String)
    (mems : List Memory) :
    (bumpOne amount now i mems).any (fun m => m.id == j) =
      mems.any (fun m => m.id == j) := by
  induction mems with
  | nil => rfl
  | cons m rest ih =>
    show (_ :: bumpOne amount now i rest).any _ = _
    simp only [List.any_cons, ih]
    congr 1
    by_cases h : m.id == i
    · simp [h, bumpRow_id]
    · simp [h]

/-- A filtered list is nonempty exactly when some element satisfies the
predicate. -/
theorem filter_length_pos_iff_any {α : Type} (p : α → Bool) (l : List α) :
    (0 < (l.filter p).length) ↔ l.any p = true := by
  simp [List.length_pos_iff_exists_mem, List.mem_filter, List.any_eq_true]

/-- Folded form of the bump transaction over a duplicate-free id list. -/
theorem bumpFold_spec (amount : ℚ) (now : Int) :
    ∀ (ids : List String), ids.Nodup → ∀ (mems : List Memory) (n : ℕ),
      ids.foldl
          (fun (acc : List Memory × ℕ) id =>
            let changes := (acc.1.filter (fun m => m.id == id)).length
            (bumpOne amount now id acc.1,
             acc.2 + if 0 < changes then 1 else 0))
          (mems, n) =
        (mems.map
          (fun m => if m.id ∈ ids then bumpRow amount now m else m),
         n + (ids.filter (fun i => mems.any (fun m => m.id == i))).length) := by
  intro ids
  induction ids with
  | nil =>
    intro _ mems n
    simp
  | cons i rest ih =>
    intro h mems n
    obtain ⟨hni, hrest⟩ := List.nodup_cons.mp h
    simp only [List.foldl_cons]
    rw [ih hrest]
    have hmap : (bumpOne amount now i mems).map
          (fun m => if m.id ∈ rest then bumpRow amount now m else m) =
        mems.map
          (fun m => if m.id ∈ i :: rest then bumpRow amount now m else m) := by
      unfold bumpOne
      rw [List.map_map]
      apply List.map_congr_left
      intro m _
      by_cases h1 : m.id = i
      · simp only [Function.comp_apply, h1, beq_self_eq_true, if_true,
          bumpRow_id]
        rw [if_neg (by simpa [h1] using hni), if_pos (List.mem_cons_self i rest)]
      · have hb : (m.id == i) = false := beq_eq_false_iff_ne.mpr h1
        simp [hb, List.mem_cons, h1]
    have hfil : rest.filter
          (fun j => (bumpOne amount now i mems).any (fun m => m.id == j)) =
        rest.filter (fun j => mems.any (fun m => m.id == j)) :=
      List.filter_congr (fun j _ => bumpOne_any amount now i j mems)
    rw [hmap, hfil, List.filter_cons]
    cases hq : mems.any (fun m => m.id == i)
    · have hd : ¬(0 < (mems.filter (fun m => m.id == i)).length) := by
        rw [filter_length_pos_iff_any, hq]
        simp
      simp [hd]
    · have hd : 0 < (mems.filter (fun m => m.id == i)).length := by
        rw [filter_length_pos_iff_any, hq]
      simp only [hd, if_pos, if_true, List.length_cons]
      refine Prod.ext rfl ?_
      simp
      omega

/-- C5: `bumpActivations` over a duplicate-free id list adds the amount
to the activation, adds 1 to the retrieval count and stamps
`last_retrieved = now` on exactly the rows whose id is listed, leaves all
other rows and the co-occurrence table untouched, performs everything in
one transaction (the single state transition modelled here), and returns
the number of listed ids that matched an existing row. -/
theorem c5_bumpActivations_spec (db : Db) (ids : List String) (amount : ℚ)
    (now : Int) (h : ids.Nodup) :
    bumpActivations db ids amount now =
      ({ db with
          memories := db.memories.map
            (fun m => if m.id ∈ ids then bumpRow amount now m else m) },
       (ids.filter (fun i => db.memories.any (fun m => m.id == i))).length) := by
  unfold bumpActivations
  rw [bumpFold_spec amount now ids h db.memories 0]
  simp

/-- A pair of equality tests is false when the pair of equalities fails. -/
theorem pair_beq_false {u v p q : String} (h : ¬(u = p ∧ v = q)) :
    ((u == p) && (v == q)) = false := by
  by_cases h1 : u = p
  · subst h1
    have h2 : v ≠ q := fun hv => h ⟨rfl, hv⟩
    simp [beq_eq_false_iff_ne.mpr h2]
  · simp [beq_eq_false_iff_ne.mpr h1]

/-- Reading the upserted table: the touched key gains `w` (starting from
0 when absent), every other key is unchanged. -/
theorem wt_insertCoOcc (a b : String) (w : ℚ) (g : List CoEdge)
    (x y : String) :
    wt (insertCoOcc a b w g) x y =
      if x = a ∧ y = b then some ((wt g a b).getD 0 + w) else wt g x y := by
  induction g with
  | nil =>
    by_cases hx : x = a ∧ y = b
    · obtain ⟨h1, h2⟩ := hx
      subst h1; subst h2
      simp [wt, insertCoOcc, List.find?]
    · have hp : ((a == x) && (b == y)) = false :=
        pair_beq_false (fun hq => hx ⟨hq.1.symm, hq.2.symm⟩)
      simp [wt, insertCoOcc, List.find?, hp, hx]
  | cons e g ih =>
    by_cases hm : e.a = a ∧ e.b = b
    · have hmb : (e.a == a && e.b == b) = true := by simp [hm.1, hm.2]
      by_cases hx : x = a ∧ y = b
      · obtain ⟨h1, h2⟩ := hx
        subst h1; subst h2
        simp [insertCoOcc, hmb, wt, List.find?, hm.1, hm.2]
      · have hp : ((e.a == x) && (e.b == y)) = false :=
          pair_beq_false (fun hq => hx ⟨hm.1 ▸ hq.1.symm ▸ rfl, hm.2 ▸ hq.2.symm ▸ rfl⟩)
        simp only [insertCoOcc, hmb, if_pos]
        have hph : (({ e with weight := e.weight + w } : CoEdge).a == x &&
            ({ e with weight := e.weight + w } : CoEdge).b == y) = false := hp
        simp [wt, List.find?, hph, hp, hx]
    · have hmb : (e.a == a && e.b == b) = false := pair_beq_false hm
      simp only [insertCoOcc, hmb, Bool.false_eq_true, if_false]
      by_cases hh : e.a = x ∧ e.b = y
      · have hhb : (e.a == x && e.b == y) = true := by simp [hh.1, hh.2]
        have hxne : ¬(x = a ∧ y = b) := by
          intro hxx
          exact hm ⟨hh.1.symm ▸ hxx.1 ▸ rfl, hh.2.symm ▸ hxx.2 ▸ rfl⟩
        simp [wt, List.find?, hhb, hxne, hmb]
      · have hhb : (e.a == x && e.b == y) = false := pair_beq_false hh
        have lhs : wt (e :: insertCoOcc a b w g) x y =
            wt (insertCoOcc a b w g) x y := by
          simp [wt, List.find?, hhb]
        rw [lhs, ih]
        have h1 : wt (e :: g) x y = wt g x y := by simp [wt, List.find?, hhb]
        have h2 : wt (e :: g) a b = wt g a b := by simp [wt, List.find?, hmb]
        rw [h1, h2]

/-- Upserting touches the key set only when the key is new, and then
appends it. -/
theorem keysOf_insertCoOcc (a b : String) (w : ℚ) (g : List CoEdge) :
    keysOf (insertCoOcc a b w g) =
      if (a, b) ∈ keysOf g then keysOf g else keysOf g ++ [(a, b)] := by
  induction g with
  | nil => simp [keysOf, insertCoOcc]
  | cons e g ih =>
    by_cases hm : e.a = a ∧ e.b = b
    · have hmb : (e.a == a && e.b == b) = true := by simp [hm.1, hm.2]
      have hmem : (a, b) ∈ keysOf (e :: g) := by
        have hk : keysOf (e :: g) = (e.a, e.b) :: keysOf g := rfl
        rw [hk, hm.1, hm.2]
        exact List.mem_cons_self _ _
      simp [insertCoOcc, hmb, keysOf, hmem, hm.1, hm.2]
    · have hmb : (e.a == a && e.b == b) = false := pair_beq_false hm
      have hne : ((a : String), b) ≠ (e.a, e.b) := by
        intro hq
        exact hm ⟨(Prod.mk.injEq _ _ _ _ ▸ hq : _ ∧ _).1.symm,
          (Prod.mk.injEq _ _ _ _ ▸ hq : _ ∧ _).2.symm⟩
      have hcons : keysOf (e :: insertCoOcc a b w g) =
          (e.a, e.b) :: keysOf (insertCoOcc a b w g) := rfl
      simp only [insertCoOcc, hmb, Bool.false_eq_true, if_false, hcons, ih]
      by_cases hin : (a, b) ∈ keysOf g
      · have : (a, b) ∈ keysOf (e :: g) := by
          simp [keysOf] at hin ⊢
          exact Or.inr hin
        simp only [hin, if_pos, this, if_true]
        rfl
      · have hnin : (a, b) ∉ keysOf (e :: g) := by
          simp only [keysOf, List.map_cons, List.mem_cons]
          rintro (h | h)
          · exact hne h
          · exact hin h
        simp only [hin, if_neg, hnin, if_false]
        rfl

/-- A key is present exactly when its weight reads back non-null. -/
theorem wt_isSome_iff (g : List CoEdge) (x y : String) :
    (wt g x y).isSome ↔ (x, y) ∈ keysOf g := by
  constructor
  · intro h
    cases hf : g.find? (fun e => e.a == x && e.b == y) with
    | none => rw [wt, hf] at h; simp at h
    | some r =>
      have hmem := List.mem_of_find?_eq_some hf
      have hpred := List.find?_some hf
      rw [Bool.and_eq_true] at hpred
      obtain ⟨h1, h2⟩ := hpred
      have ha : r.a = x := eq_of_beq h1
      have hb : r.b = y := eq_of_beq h2
      unfold keysOf
      rw [List.mem_map]
      exact ⟨r, hmem, by rw [ha, hb]⟩
  · intro h
    unfold keysOf at h
    rw [List.mem_map] at h
    obtain ⟨r, hr, hkey⟩ := h
    injection hkey with hka hkb
    subst hka
    subst hkb
    rw [wt]
    cases hf : g.find? (fun e => e.a == r.a && e.b == r.b) with
    | none =>
      have := List.find?_eq_none.mp hf r hr
      simp at this
    | some s => simp

/-- One unordered pair wired in both directions preserves the store
invariant: both directed upserts happen in the same transaction. -/
theorem graphWf_wirePair (a b : String) (g : List CoEdge) (h : GraphWf g) :
    GraphWf (wirePair (a, b) g) := by
  obtain ⟨hk, hs⟩ := h
  have hrfl : wirePair (a, b) g = insertCoOcc b a 1 (insertCoOcc a b 1 g) := rfl
  constructor
  · rw [hrfl, keysOf_insertCoOcc, keysOf_insertCoOcc]
    by_cases hin : (a, b) ∈ keysOf g
    · have hin2 : (b, a) ∈ keysOf g := by
        rw [← wt_isSome_iff] at hin ⊢
        rw [hs b a]
        exact hin
      simp only [hin, if_true, hin2]
      exact hk
    · have hin2 : (b, a) ∉ keysOf g := by
        rw [← wt_isSome_iff] at hin ⊢
        rw [hs b a]
        exact hin
      by_cases hab : a = b
      · subst hab
        have hmem : (a, a) ∈ keysOf g ++ [(a, a)] := by simp
        simp only [hin, if_false, hmem, if_true]
        rw [List.nodup_append]
        refine ⟨hk, List.nodup_singleton _, ?_⟩
        intro p hp hq
        simp only [List.mem_singleton] at hq
        subst hq
        exact hin hp
      · have hmem : (b, a) ∉ keysOf g ++ [(a, b)] := by
          simp only [List.mem_append, List.mem_singleton]
          rintro (hq | hq)
          · exact hin2 hq
          · injection hq with q1 q2
            exact hab q2
        simp only [hin, if_false, hmem]
        rw [List.nodup_append]
        refine ⟨?_, List.nodup_singleton _, ?_⟩
        · rw [List.nodup_append]
          refine ⟨hk, List.nodup_singleton _, ?_⟩
          intro p hp hq
          simp only [List.mem_singleton] at hq
          subst hq
          exact hin hp
        · intro p hp hq
          simp only [List.mem_singleton] at hq
          subst hq
          simp only [List.mem_append, List.mem_singleton] at hp
          rcases hp with hp | hp
          · exact hin2 hp
          · injection hp with q1 q2
            exact hab q2
  · intro x y
    rw [hrfl, wt_insertCoOcc b a 1 (insertCoOcc a b 1 g) x y,
      wt_insertCoOcc b a 1 (insertCoOcc a b 1 g) y x,
      wt_insertCoOcc a b 1 g b a, wt_insertCoOcc a b 1 g x y,
      wt_insertCoOcc a b 1 g y x]
    by_cases hab : a = b
    · subst hab
      by_cases hxy : x = a ∧ y = a
      · obtain ⟨h1, h2⟩ := hxy
        subst h1; subst h2
        simp
      · have hyx : ¬(y = a ∧ x = a) := fun hq => hxy ⟨hq.2, hq.1⟩
        simp only [hxy, hyx, if_false]
        exact hs x y
    · have hba : ¬(b = a ∧ a = b) := fun hq => hab hq.2
      rw [if_neg hba]
      have h5 : ¬(a = b ∧ b = a) := fun hq => hab hq.1
      by_cases h1 : x = b ∧ y = a
      · have h3 : ¬(y = b ∧ x = a) := fun hq => hab (h1.2 ▸ hq.1 ▸ rfl)
        have h4 : y = a ∧ x = b := ⟨h1.2, h1.1⟩
        simp [h1, h3, h4, h5, hba, hs b a]
      · by_cases h2 : x = a ∧ y = b
        · have h3 : y = b ∧ x = a := ⟨h2.2, h2.1⟩
          have h4 : ¬(y = a ∧ x = b) := fun hq => hab (h2.1 ▸ hq.2 ▸ rfl)
          simp [h1, h2, h3, h4, h5, hba, hs b a]
        · have h3 : ¬(y = b ∧ x = a) := fun hq => h2 ⟨hq.2, hq.1⟩
          have h4 : ¬(y = a ∧ x = b) := fun hq => h1 ⟨hq.2, hq.1⟩
          simp only [h1, h2, h3, h4, if_false]
          exact hs x y

/-- Folding pair wirings preserves the invariant. -/
theorem graphWf_foldl_wirePair (ps : List (String × String)) :
    ∀ g, GraphWf g → GraphWf (ps.foldl (fun acc p => wirePair p acc) g) := by
  induction ps with
  | nil => intro g h; exact h
  | cons p rest ih =>
    intro g h
    exact ih (wirePair p g) (graphWf_wirePair p.1 p.2 g h)

/-- One domain group preserves the invariant. -/
theorem graphWf_wireGroup (g : List CoEdge) (ids : List String)
    (h : GraphWf g) : GraphWf (wireGroup g ids) := by
  unfold wireGroup
  by_cases hl : ids.length < 2
  · simp [hl, h]
  · simp only [hl, if_false]
    exact graphWf_foldl_wirePair (pairsOf ids) g h

/-- A whole wiring transaction preserves the invariant. -/
theorem graphWf_wireCoOcc (mems : List Memory) (ids : List String)
    (g : List CoEdge) (h : GraphWf g) : GraphWf (wireCoOcc mems ids g) := by
  unfold wireCoOcc
  have hgen : ∀ (grps : List (String × List String)) (g0 : List CoEdge),
      GraphWf g0 →
      GraphWf (grps.foldl (fun acc grp => wireGroup acc grp.2) g0) := by
    intro grps
    induction grps with
    | nil => intro g0 h0; exact h0
    | cons grp rest ih =>
      intro g0 h0
      exact ih (wireGroup g0 grp.2) (graphWf_wireGroup g0 grp.2 h0)
  exact hgen (byDomainOf mems ids) g h

/-- Every reachable co-occurrence table satisfies the invariant. -/
theorem graphWf_reach (g : List CoEdge) (h : Reach g) : GraphWf g := by
  induction h with
  | nil =>
    constructor
    · simp [keysOf]
    · intro a b
      simp [wt]
  | step mems ids hg ih => exact graphWf_wireCoOcc mems ids _ ih

/-- With unique primary keys, the key lookup of a stored row returns that
row. -/
theorem find?_self_of_nodup_keys (g : List CoEdge)
    (h : (keysOf g).Nodup) (e : CoEdge) (he : e ∈ g) :
    g.find? (fun x => x.a == e.a && x.b == e.b) = some e := by
  induction g with
  | nil => cases he
  | cons f g ih =>
    have hk := List.nodup_cons.mp h
    rcases List.mem_cons.mp he with hef | hef
    · subst hef
      have : (e.a == e.a && e.b == e.b) = true := by simp
      simp [List.find?, this]
    · have hne : ¬(f.a = e.a ∧ f.b = e.b) := by
        intro hq
        apply hk.1
        have hmemk : (e.a, e.b) ∈ keysOf g := by
          unfold keysOf
          rw [List.mem_map]
          exact ⟨e, hef, rfl⟩
        show (f.a, f.b) ∈ List.map (fun e => (e.a, e.b)) g
        rw [hq.1, hq.2]
        exact hmemk
      have hfb : (f.a == e.a && f.b == e.b) = false := pair_beq_false hne
      simp only [List.find?, hfb]
      exact ih hk.2 hef

/-- C6: in every co-occurrence table reachable from the empty table by
`wireCoOccurrences` transactions, each directed edge has its reverse edge
present with the same weight. -/
theorem c6_reach_symmetric (g : List CoEdge) (h : Reach g) :
    ∀ e ∈ g, ∃ r, r ∈ g ∧ r.a = e.b ∧ r.b = e.a ∧ r.weight = e.weight := by
  obtain ⟨hk, hs⟩ := graphWf_reach g h
  intro e he
  have h1 : wt g e.a e.b = some e.weight := by
    rw [wt, find?_self_of_nodup_keys g hk e he]
    rfl
  have h2 : wt g e.b e.a = some e.weight := by
    rw [hs e.b e.a]
    exact h1
  rw [wt] at h2
  cases hf : g.find? (fun x => x.a == e.b && x.b == e.a) with
  | none => rw [hf] at h2; exact absurd h2 (by simp)
  | some r =>
    rw [hf] at h2
    simp only [Option.map_some'] at h2
    have hmem := List.mem_of_find?_eq_some hf
    have hpred := List.find?_some hf
    rw [Bool.and_eq_true] at hpred
    exact ⟨r, hmem, eq_of_beq hpred.1, eq_of_beq hpred.2,
      Option.some.injEq _ _ ▸ h2⟩

/-- C6 witness: wiring ids `x`, `y` (same domain) from the empty table
yields the reverse of edge `(x, y, 1)` with equal weight. -/
theorem c6_reach_symmetric_witness :
    ∃ r, r ∈ wireCoOcc c6mems ["x", "y"] [] ∧ r.a = "y" ∧ r.b = "x" ∧
      r.weight = (⟨"x", "y", 1⟩ : CoEdge).weight :=
  c6_reach_symmetric (wireCoOcc c6mems ["x", "y"] [])
    (Reach.step c6mems ["x", "y"] Reach.nil) ⟨"x", "y", 1⟩ (by decide)

/-- Reversal preserves the total charge. -/
theorem totalCharge_reverse (l : List RetEntry) :
    totalCharge l.reverse = totalCharge l := by
  simp [totalCharge, List.sum_reverse]

/-- Charge of a cons. -/
theorem totalCharge_cons (e : RetEntry) (l : List RetEntry) :
    totalCharge (e :: l) = chargeOf e + totalCharge l := by
  simp [totalCharge]

/-- Charge of an append. -/
theorem totalCharge_append (l1 l2 : List RetEntry) :
    totalCharge (l1 ++ l2) = totalCharge l1 + totalCharge l2 := by
  simp [totalCharge]

/-- Membership in an insertion step. -/
theorem mem_insDesc {α : Type} (key : α → ℚ) (x : α) (l : List α) (e : α) :
    e ∈ insDesc key x l ↔ e = x ∨ e ∈ l := by
  induction l with
  | nil => simp [insDesc]
  | cons y ys ih =>
    simp only [insDesc]
    split
    · simp
    · simp only [List.mem_cons, ih]
      tauto

/-- The stable sort is a permutation at the level of membership. -/
theorem mem_sortByDesc {α : Type} (key : α → ℚ) (l : List α) (e : α) :
    e ∈ sortByDesc key l ↔ e ∈ l := by
  induction l with
  | nil => simp [sortByDesc]
  | cons x xs ih =>
    simp only [sortByDesc, mem_insDesc, List.mem_cons, ih]

/-- Everything the selection walk returns was already selected or came
from the ranked list. -/
theorem selectGo_mem (B L : ℕ) (rest : List RetEntry) :
    ∀ sel used seen e, e ∈ (selectGo B L rest sel used seen).1 →
      e ∈ sel ∨ e ∈ rest := by
  induction rest with
  | nil =>
    intro sel used seen e he
    simp only [selectGo] at he
    exact Or.inl (List.mem_reverse.mp he)
  | cons a rest ih =>
    intro sel used seen e he
    simp only [selectGo] at he
    split at he
    · exact Or.inl (List.mem_reverse.mp he)
    · split at he
      · rcases ih _ _ _ _ he with h | h
        · exact Or.inl h
        · exact Or.inr (List.mem_cons_of_mem _ h)
      · split at he
        · rcases List.mem_cons.mp (List.mem_reverse.mp he) with h | h
          · exact Or.inr (h ▸ List.mem_cons_self a rest)
          · exact Or.inl h
        · rcases ih _ _ _ _ he with h | h
          · rcases List.mem_cons.mp h with h1 | h1
            · exact Or.inr (h1 ▸ List.mem_cons_self a rest)
            · exact Or.inl h1
          · exact Or.inr (List.mem_cons_of_mem _ h)

/-- The selection walk never selects more than `limit` entries (for a
positive limit). -/
theorem selectGo_length (B L : ℕ) (rest : List RetEntry) :
    ∀ sel used seen, sel.length < L →
      (selectGo B L rest sel used seen).1.length ≤ L := by
  induction rest with
  | nil =>
    intro sel used seen h
    simp only [selectGo]
    simpa using le_of_lt h
  | cons a rest ih =>
    intro sel used seen h
    simp only [selectGo]
    split
    · simpa using le_of_lt h
    · split
      · exact ih _ _ _ h
      · split
        · simpa using h
        · next hlt =>
          exact ih _ _ _ (by simpa using Nat.lt_of_not_le hlt)

/-- Charge accounting of the selection walk: the used counter tracks the
total charge of the selection, and the total stays within the budget
except when the selection is a single entry that alone exceeds it. -/
theorem selectGo_charge (B L : ℕ) (rest : List RetEntry) :
    ∀ sel used seen,
      used = totalCharge sel →
      (used ≤ B ∨ ∃ e, sel = [e] ∧ B < chargeOf e) →
      (selectGo B L rest sel used seen).2 =
          totalCharge (selectGo B L rest sel used seen).1 ∧
        ((selectGo B L rest sel used seen).2 ≤ B ∨
          ∃ e, (selectGo B L rest sel used seen).1 = [e] ∧ B < chargeOf e) := by
  induction rest with
  | nil =>
    intro sel used seen h1 h2
    simp only [selectGo]
    refine ⟨by rw [h1, totalCharge_reverse], ?_⟩
    rcases h2 with h | ⟨e, he, hc⟩
    · exact Or.inl h
    · exact Or.inr ⟨e, by rw [he]; rfl, hc⟩
  | cons a rest ih =>
    intro sel used seen h1 h2
    simp only [selectGo]
    split
    · refine ⟨by rw [h1, totalCharge_reverse], ?_⟩
      rcases h2 with h | ⟨e, he, hc⟩
      · exact Or.inl h
      · exact Or.inr ⟨e, by rw [he]; rfl, hc⟩
    · next hbreak =>
      split
      · exact ih _ _ _ h1 h2
      · split
        · refine ⟨?_, ?_⟩
          · show used + chargeOf a = totalCharge (a :: sel).reverse
            rw [totalCharge_reverse, totalCharge_cons, h1]
            omega
          · by_cases hsel : sel = []
            · subst hsel
              by_cases hc : chargeOf a ≤ B
              · left
                show used + chargeOf a ≤ B
                have : used = 0 := h1
                omega
              · right
                exact ⟨a, by rfl, by omega⟩
            · left
              show used + chargeOf a ≤ B
              by_contra hgt
              exact hbreak ⟨by omega, hsel⟩
        · apply ih
          · rw [totalCharge_cons, h1]
            omega
          · by_cases hsel : sel = []
            · subst hsel
              by_cases hc : chargeOf a ≤ B
              · left
                have : used = 0 := h1
                omega
              · right
                exact ⟨a, rfl, by omega⟩
            · left
              by_contra hgt
              exact hbreak ⟨by omega, hsel⟩

/-- The fill loop appends only spread-marked entries, at most one per
related pattern, keeps the charge ledger accurate, and never exceeds the
budget it started under. -/
theorem fillGo_spec (B : ℕ) (rel : List (Memory × ℚ)) :
    ∀ sel used,
      used = totalCharge sel →
      ∃ extra,
        (fillGo B rel sel used).1 = sel ++ extra ∧
        (∀ e ∈ extra, e.spreadingActivation = true) ∧
        extra.length ≤ rel.length ∧
        (fillGo B rel sel used).2 = totalCharge (fillGo B rel sel used).1 ∧
        (used ≤ B → (fillGo B rel sel used).2 ≤ B) := by
  induction rel with
  | nil =>
    intro sel used h1
    exact ⟨[], by simp [fillGo], by simp, by simp, by simpa [fillGo] using h1,
      fun h => h⟩
  | cons r rest ih =>
    intro sel used h1
    simp only [fillGo]
    split
    · exact ⟨[], by simp, by simp, by simp, h1, fun h => h⟩
    · next hfit =>
      obtain ⟨extra, he1, he2, he3, he4, he5⟩ :=
        ih (sel ++ [mkSpread r]) (used + chargeOf (mkSpread r))
          (by rw [totalCharge_append, totalCharge_cons, h1]; simp [totalCharge])
      refine ⟨mkSpread r :: extra, ?_, ?_, ?_, he4, ?_⟩
      · rw [he1, List.append_assoc]
        rfl
      · intro e hmem
        rcases List.mem_cons.mp hmem with h | h
        · rw [h]
          rfl
        · exact he2 e h
      · simpa using Nat.succ_le_succ he3
      · intro _
        exact he5 (by omega)

/-- The spreading pass returns at most `limit` related patterns. -/
theorem getSpreadingActivation_length (db : Db) (ids : List String) (n : ℕ) :
    (getSpreadingActivation db ids n).length ≤ n := by
  unfold getSpreadingActivation
  refine le_trans (List.length_filterMap_le _ _) ?_
  simp

/-- What a successfully scored entry looks like: it wraps the candidate
row, is not spread-marked, records its semantic similarity, and — when a
query embedding was present — passed the 0.30 floor on the cosine of the
decoded stored embedding. -/
theorem scoreEntry_some (opts : RetrieveOptions) (maxAct : ℚ) (now : Int)
    (entry : Memory) (e : RetEntry)
    (h : scoreEntry opts maxAct now entry = some e) :
    e.mem = entry ∧ e.spreadingActivation = false ∧
    ∃ s, e.semanticSim = some s ∧
      ∀ q, opts.queryEmbedding = some q →
        ¬s < (3 : ℚ) / 10 ∧
        ∃ b, entry.embedding = some b ∧
          s = cosineSimilarity (some q) (blobToEmbedding (some b)) := by
  simp only [scoreEntry] at h
  split at h
  · next htt =>
    split at h
    · exact absurd h (by simp)
    · next hguard =>
      have he := Option.some.inj h
      subst he
      refine ⟨rfl, rfl, _, rfl, ?_⟩
      intro q hq
      constructor
      · intro hlt
        exact hguard ⟨by simp [hq], hlt⟩
      · have hembs : entry.embedding.isSome = true := by
          rw [Bool.and_eq_true] at htt
          exact htt.2
        obtain ⟨b, hb⟩ := Option.isSome_iff_exists.mp hembs
        refine ⟨b, hb, ?_⟩
        rw [hq, hb]
  · next htf =>
    split at h
    · exact absurd h (by simp)
    · next hguard =>
      have he := Option.some.inj h
      subst he
      refine ⟨rfl, rfl, _, rfl, ?_⟩
      intro q hq
      exfalso
      exact hguard ⟨by simp [hq], by norm_num⟩

/-- Every non-spread entry of a retrieval result is the scored image of a
candidate row. -/
theorem retrieve_nonspread (db : Db) (opts : RetrieveOptions) (now : Int)
    (e : RetEntry) (he : e ∈ retrieve db opts now)
    (hsp : e.spreadingActivation = false) :
    ∃ entry, entry ∈ candidatesOf db opts ∧
      scoreEntry opts
          (maxActivationOf ((candidatesOf db opts).map (fun c => c.activation)))
          now entry = some e := by
  simp only [retrieve] at he
  split at he
  · cases he
  · split at he
    · obtain ⟨extra, he1, he2, _, _, _⟩ :=
        fillGo_spec (opts.tokenBudget * 4) _ _ _
          (selectGo_charge (opts.tokenBudget * 4) opts.limit _ [] 0 [] rfl
            (Or.inl (Nat.zero_le _))).1
      rw [he1] at he
      rcases List.mem_append.mp he with h | h
      · rcases selectGo_mem _ _ _ _ _ _ _ h with h3 | h3
        · cases h3
        · obtain ⟨entry, hentry, hscore⟩ :=
            List.mem_filterMap.mp ((mem_sortByDesc _ _ _).mp h3)
          exact ⟨entry, hentry, hscore⟩
      · rw [he2 e h] at hsp
        cases hsp
    · rcases selectGo_mem _ _ _ _ _ _ _ he with h3 | h3
      · cases h3
      · obtain ⟨entry, hentry, hscore⟩ :=
          List.mem_filterMap.mp ((mem_sortByDesc _ _ _).mp h3)
        exact ⟨entry, hentry, hscore⟩

/-- C3: the total characters charged for the returned items —
`(detail or title).length + 20` each, over both budget-selected and
spread-fill items — never exceed `tokenBudget * 4`, except when the very
first ranked entry alone already exceeds the budget, in which case it is
the only returned item. -/
theorem c3_token_budget (db : Db) (opts : RetrieveOptions) (now : Int) :
    totalCharge (retrieve db opts now) ≤ opts.tokenBudget * 4 ∨
    ∃ e, retrieve db opts now = [e] ∧ opts.tokenBudget * 4 < chargeOf e := by
  simp only [retrieve]
  split
  · left
    simp [totalCharge]
  · set B := opts.tokenBudget * 4 with hB
    set ranked := sortByDesc (fun e => e.score)
      ((candidatesOf db opts).filterMap
        (scoreEntry opts
          (maxActivationOf ((candidatesOf db opts).map (fun c => c.activation)))
          now)) with hranked
    have hsel := selectGo_charge B opts.limit ranked [] 0 [] rfl
      (Or.inl (Nat.zero_le B))
    split
    · next hfill =>
      left
      obtain ⟨extra, he1, he2, he3, he4, he5⟩ :=
        fillGo_spec B _ _ _ hsel.1
      have hused : (selectGo B opts.limit ranked [] 0 []).2 ≤ B := by
        rcases hsel.2 with hu | ⟨e0, he0, hc0⟩
        · exact hu
        · exfalso
          have heq : (selectGo B opts.limit ranked [] 0 []).2 = chargeOf e0 := by
            rw [hsel.1, he0, totalCharge_cons]
            simp [totalCharge]
          omega
      rw [← he4]
      exact he5 hused
    · rcases hsel.2 with hu | ⟨e0, he0, hc0⟩
      · left
        rw [← hsel.1]
        exact hu
      · right
        exact ⟨e0, he0, hc0⟩

/-- C2 amended: for a positive entry cap, at most `limit` items are
budget-selected (the non-spread items), and the spreading-activation fill
— which the source does not bound by `limit` — appends at most 8 more, so
the returned list never exceeds `limit + 8` items. -/
theorem c2_result_length_bounded (db : Db) (opts : RetrieveOptions)
    (now : Int) (h : 1 ≤ opts.limit) :
    (retrieve db opts now).length ≤ opts.limit + 8 ∧
    ((retrieve db opts now).filter
        (fun e => !e.spreadingActivation)).length ≤ opts.limit := by
  simp only [retrieve]
  split
  · simp
  · set B := opts.tokenBudget * 4 with hB
    set ranked := sortByDesc (fun e => e.score)
      ((candidatesOf db opts).filterMap
        (scoreEntry opts
          (maxActivationOf ((candidatesOf db opts).map (fun c => c.activation)))
          now)) with hranked
    have hlen := selectGo_length B opts.limit ranked [] 0 [] (by simp; omega)
    split
    · next hfill =>
      obtain ⟨extra, he1, he2, he3, _, _⟩ :=
        fillGo_spec B _ _ _
          (selectGo_charge B opts.limit ranked [] 0 [] rfl
            (Or.inl (Nat.zero_le B))).1
      rw [he1]
      constructor
      · rw [List.length_append]
        have h8 : extra.length ≤ 8 :=
          le_trans he3 (getSpreadingActivation_length _ _ _)
        omega
      · rw [List.filter_append]
        have hext : extra.filter (fun e => !e.spreadingActivation) = [] := by
          rw [List.filter_eq_nil_iff]
          intro x hx
          simp [he2 x hx]
        rw [hext, List.append_nil]
        exact le_trans (List.length_filter_le _ _) hlen
    · exact ⟨le_trans hlen (by omega),
        le_trans (List.length_filter_le _ _) hlen⟩

/-- C4 amended: with a query embedding present, every non-spread returned
item passed the 0.30 semantic floor: its recorded similarity is the
cosine of the query against its decoded stored embedding and is at least
0.30.  (Spread-fill items are appended with no similarity check — see the
counterexample.) -/
theorem c4_floor_on_scored_path (db : Db) (opts : RetrieveOptions)
    (now : Int) (q : List ℚ) (hq : opts.queryEmbedding = some q) :
    ∀ e ∈ retrieve db opts now, e.spreadingActivation = false →
      ∃ s, e.semanticSim = some s ∧ (3 : ℚ) / 10 ≤ s ∧
        ∃ b, e.mem.embedding = some b ∧
          s = cosineSimilarity (some q) (blobToEmbedding (some b)) := by
  intro e he hsp
  obtain ⟨entry, _, hscore⟩ := retrieve_nonspread db opts now e he hsp
  obtain ⟨hmem, _, s, hsim, hfloor⟩ := scoreEntry_some _ _ _ _ _ hscore
  obtain ⟨hnlt, b, hb, hs⟩ := hfloor q hq
  refine ⟨s, hsim, le_of_not_lt hnlt, b, ?_, hs⟩
  rw [hmem]
  exact hb

/-!
## Witnesses instantiating the hypothesised theorems
-/

section WitnessEvaluations

attribute [local semireducible] Rat.add Rat.sub Rat.mul Rat.inv

set_option maxRecDepth 16000

/-- C2 witness: the bounds instantiated on the concrete store with
`limit = 1`. -/
theorem c2_result_length_bounded_witness :
    (retrieve c2db c2opts 0).length ≤ c2opts.limit + 8 ∧
    ((retrieve c2db c2opts 0).filter
        (fun e => !e.spreadingActivation)).length ≤ c2opts.limit :=
  c2_result_length_bounded c2db c2opts 0 (by decide)

/-- C4 witness: the first returned item of the concrete semantic
retrieval is a non-spread item whose recorded similarity is the cosine of
the query against its stored embedding and is at least 0.30. -/
theorem c4_floor_on_scored_path_witness :
    ∃ s, ((retrieve c4db c4opts 0).getD 0 defaultEntry).semanticSim =
        some s ∧
      (3 : ℚ) / 10 ≤ s ∧
      ∃ b, ((retrieve c4db c4opts 0).getD 0 defaultEntry).mem.embedding =
          some b ∧
        s = cosineSimilarity (some [1, 0]) (blobToEmbedding (some b)) :=
  c4_floor_on_scored_path c4db c4opts 0 [1, 0] rfl
    ((retrieve c4db c4opts 0).getD 0 defaultEntry) (by decide) (by decide)

/-- C5 witness: bumping ids `a` (present) and `zz` (absent) on the
concrete store updates exactly row `a` and reports one affected row. -/
theorem c5_bumpActivations_spec_witness :
    bumpActivations c5db ["a", "zz"] ((1 : ℚ) / 2) 99 =
      ({ c5db with
          memories := c5db.memories.map
            (fun m => if m.id ∈ ["a", "zz"] then bumpRow ((1 : ℚ) / 2) 99 m
              else m) },
       1) := by
  rw [c5_bumpActivations_spec c5db ["a", "zz"] ((1 : ℚ) / 2) 99 (by decide)]
  decide

end WitnessEvaluations

end Hebbian
